import Mathlib

/-!
Verification of the chapter-segmentation and EPUB-packaging pipeline of the
epub-generate repository (src/App.vue).  Strings from the source program are
modelled as `List Char`, byte buffers as `List Nat`.  The platform
`TextDecoder` is external to the repository; it is modelled abstractly by an
`EncodingModel` (streaming `step` and `flush`), with the WHATWG streaming
contract stated as a separate `LawfulEncoding` predicate.
-/

/-- JS `line.trim()`: strip leading and trailing whitespace. -/
def trimL (l : List Char) : List Char :=
  ((l.dropWhile Char.isWhitespace).reverse.dropWhile Char.isWhitespace).reverse

/-- A chapter as built by `generateEpub`: `{ title, content }`. -/
structure Chapter where
  title : List Char
  content : List (List Char)
deriving DecidableEq, Repr

/-- The chapter-accumulation loop of `generateEpub` (App.vue lines 181-222).
`p` is the boundary test `line.match(regex)` (abstracted to a Boolean
predicate), `cur` is `currentChapter`, `acc` is `chapters`. -/
def segLoop (p : List Char → Bool) (cur : Option Chapter) (acc : List Chapter) :
    List (List Char) → List Chapter
  | [] =>
    match cur with
    | some c => if c.content.length > 0 then acc ++ [c] else acc
    | none => acc
  | line :: rest =>
    if p line then
      let acc' :=
        match cur with
        | some c => if c.content.length > 0 then acc ++ [c] else acc
        | none => acc
      segLoop p (some ⟨trimL line, []⟩) acc' rest
    else
      match cur with
      | some c =>
        if (trimL line).isEmpty then segLoop p (some c) acc rest
        else segLoop p (some ⟨c.title, c.content ++ [line]⟩) acc rest
      | none =>
        if (trimL line).isEmpty then segLoop p (some ⟨"序言".data, []⟩) acc rest
        else segLoop p (some ⟨"序言".data, [line]⟩) acc rest

/-- The chapter list computed by `generateEpub` from the decoded lines. -/
def segmentChapters (p : List Char → Bool) (lines : List (List Char)) : List Chapter :=
  segLoop p none [] lines

/-- Same traversal as `segLoop` but keeping every opened chapter, including
ones finalized with zero content lines.  Chapters appear in the order they
are opened while scanning the source, so this sequence is source-ordered by
construction. -/
def rawLoop (p : List Char → Bool) (cur : Option Chapter) :
    List (List Char) → List Chapter
  | [] =>
    match cur with
    | some c => [c]
    | none => []
  | line :: rest =>
    if p line then
      match cur with
      | some c => c :: rawLoop p (some ⟨trimL line, []⟩) rest
      | none => rawLoop p (some ⟨trimL line, []⟩) rest
    else
      match cur with
      | some c =>
        if (trimL line).isEmpty then rawLoop p (some c) rest
        else rawLoop p (some ⟨c.title, c.content ++ [line]⟩) rest
      | none =>
        if (trimL line).isEmpty then rawLoop p (some ⟨"序言".data, []⟩) rest
        else rawLoop p (some ⟨"序言".data, [line]⟩) rest

/-- Every chapter ever opened during the scan, in source order. -/
def rawChapters (p : List Char → Bool) (lines : List (List Char)) : List Chapter :=
  rawLoop p none lines

/-- The boundary predicate denoted by the regular expression `^第.+章` under
JS `String.match` semantics: the line starts with `第` followed by at least
one character and then a `章`. -/
def diZhangMatch : List Char → Bool
  | c :: rest => c = '第' && (rest.drop 1).contains '章'
  | [] => false

theorem segLoop_eq_filter_rawLoop (p : List Char → Bool) :
    ∀ (lines : List (List Char)) (cur : Option Chapter) (acc : List Chapter),
      segLoop p cur acc lines =
        acc ++ (rawLoop p cur lines).filter (fun c => !c.content.isEmpty) := by
  intro lines
  induction lines with
  | nil =>
    intro cur acc
    cases cur with
    | none => simp [segLoop, rawLoop]
    | some c =>
      simp only [segLoop, rawLoop, List.filter]
      cases h : c.content with
      | nil => simp [h, List.isEmpty]
      | cons x xs => simp [h, List.isEmpty]
  | cons line rest ih =>
    intro cur acc
    by_cases hp : p line
    · cases cur with
      | none => simp [segLoop, rawLoop, hp, ih]
      | some c =>
        simp only [segLoop, rawLoop, hp, if_pos]
        cases h : c.content with
        | nil => simp [h, ih, List.filter, List.isEmpty]
        | cons x xs => simp [h, ih, List.filter, List.isEmpty]
    · cases cur with
      | none =>
        by_cases hb : (trimL line).isEmpty <;>
          simp [segLoop, rawLoop, hp, hb, ih]
      | some c =>
        by_cases hb : (trimL line).isEmpty <;>
          simp [segLoop, rawLoop, hp, hb, ih]

theorem contentProp_of_eq (R : List Char → Prop) (d : Chapter)
    (hd : ∀ l ∈ d.content, R l) :
    ∀ c, some d = some c → ∀ l ∈ c.content, R l := by
  intro c hc
  cases Option.some.inj hc
  exact hd

theorem segLoop_content_prop (p : List Char → Bool) (R : List Char → Prop) :
    ∀ (lines : List (List Char)) (cur : Option Chapter) (acc : List Chapter),
      (∀ ch ∈ acc, ∀ l ∈ ch.content, R l) →
      (∀ c, cur = some c → ∀ l ∈ c.content, R l) →
      (∀ l ∈ lines, ¬(trimL l).isEmpty → R l) →
      ∀ ch ∈ segLoop p cur acc lines, ∀ l ∈ ch.content, R l := by
  intro lines
  induction lines with
  | nil =>
    intro cur acc hacc hcur _ ch hch
    cases cur with
    | none => exact hacc ch hch
    | some c =>
      simp only [segLoop] at hch
      by_cases h : c.content.length > 0
      · rw [if_pos h] at hch
        rcases List.mem_append.1 hch with h' | h'
        · exact hacc ch h'
        · rcases List.mem_singleton.1 h' with rfl
          exact hcur _ rfl
      · rw [if_neg h] at hch
        exact hacc ch hch
  | cons line rest ih =>
    intro cur acc hacc hcur hlines ch hch
    have hline : ¬(trimL line).isEmpty → R line := hlines line (by simp)
    have hrest : ∀ l ∈ rest, ¬(trimL l).isEmpty → R l :=
      fun l hl => hlines l (by simp [hl])
    by_cases hp : p line
    · cases cur with
      | none =>
        simp only [segLoop, hp, if_pos] at hch
        exact ih (some ⟨trimL line, []⟩) acc hacc
          (contentProp_of_eq R _ (by simp)) hrest ch hch
      | some c =>
        simp only [segLoop, hp, if_pos] at hch
        by_cases h : c.content.length > 0
        · rw [if_pos h] at hch
          refine ih _ _ ?_ (contentProp_of_eq R _ (by simp)) hrest ch hch
          intro ch' hch' l hl
          rcases List.mem_append.1 hch' with h' | h'
          · exact hacc ch' h' l hl
          · rcases List.mem_singleton.1 h' with rfl
            exact hcur _ rfl l hl
        · rw [if_neg h] at hch
          exact ih _ _ hacc (contentProp_of_eq R _ (by simp)) hrest ch hch
    · cases cur with
      | none =>
        by_cases hb : (trimL line).isEmpty
        · simp only [segLoop, hp, if_neg, hb, if_pos] at hch
          exact ih _ _ hacc (contentProp_of_eq R _ (by simp)) hrest ch hch
        · simp only [segLoop, hp, if_neg, hb] at hch
          refine ih _ _ hacc (contentProp_of_eq R _ ?_) hrest ch hch
          intro l hl
          rcases List.mem_singleton.1 hl with rfl
          exact hline hb
      | some c =>
        by_cases hb : (trimL line).isEmpty
        · simp only [segLoop, hp, if_neg, hb, if_pos] at hch
          exact ih _ _ hacc (contentProp_of_eq R _ (hcur c rfl)) hrest ch hch
        · simp only [segLoop, hp, if_neg, hb] at hch
          refine ih _ _ hacc (contentProp_of_eq R _ ?_) hrest ch hch
          intro l hl
          simp only at hl
          rcases List.mem_append.1 hl with h' | h'
          · exact hcur c rfl l h'
          · rcases List.mem_singleton.1 h' with rfl
            exact hline hb

/-- C2: every chapter emitted by the segmentation in `generateEpub` has at
least one content line; the output is exactly the source-ordered sequence of
opened chapters (`rawChapters`) with the zero-content ones (implicit preamble
included, and back-to-back boundary lines) filtered out, hence a sublist of
it, preserving source order. -/
theorem c2_segmentation_invariants (p : List Char → Bool) (lines : List (List Char)) :
    segmentChapters p lines
        = (rawChapters p lines).filter (fun c => !c.content.isEmpty)
    ∧ List.Sublist (segmentChapters p lines) (rawChapters p lines)
    ∧ ∀ ch ∈ segmentChapters p lines, ch.content ≠ [] := by
  have hfil := segLoop_eq_filter_rawLoop p lines none []
  simp only [List.nil_append] at hfil
  refine ⟨hfil, ?_, ?_⟩
  · rw [segmentChapters, hfil]
    exact List.filter_sublist _
  · intro ch hch
    rw [segmentChapters, hfil] at hch
    have := (List.mem_filter.1 hch).2
    simpa [List.isEmpty_iff] using this

/-- C2 witness: concrete instance with a back-to-back boundary (the chapter
opened by the first `第一章` line is discarded). -/
theorem c2_witness :
    segmentChapters diZhangMatch
        ["第一章".data, "第二章".data, "正文".data]
      = [⟨"第二章".data, ["正文".data]⟩]
    ∧ (⟨"第二章".data, ["正文".data]⟩ : Chapter).content ≠ [] :=
  ⟨by decide,
    (c2_segmentation_invariants diZhangMatch
      ["第一章".data, "第二章".data, "正文".data]).2.2 _ (by decide)⟩

/-- C4 counterexample: the code stores content lines verbatim
(`currentChapter.content.push(line)`), not trimmed; the line `" 正文 "`
is stored with its surrounding spaces. -/
theorem c4_counterexample :
    (segmentChapters diZhangMatch ["第一章".data, " 正文 ".data]).map Chapter.content
        = [[" 正文 ".data]]
    ∧ trimL " 正文 ".data ≠ " 正文 ".data := by
  constructor
  · decide
  · decide

/-- C4 amended: every content line stored in a chapter produced by the
segmentation in `generateEpub` is non-empty after trimming, and is stored
verbatim (it is one of the source lines, untrimmed). -/
theorem c4_content_verbatim (p : List Char → Bool) (lines : List (List Char)) :
    ∀ ch ∈ segmentChapters p lines, ∀ l ∈ ch.content,
      ¬(trimL l).isEmpty ∧ l ∈ lines := by
  intro ch hch l hl
  refine segLoop_content_prop p (fun l => ¬(trimL l).isEmpty ∧ l ∈ lines)
    lines none [] (by simp) (by simp) ?_ ch hch l hl
  intro l' hl' hb
  exact ⟨hb, hl'⟩

/-- C4 witness for the amended claim, at the counterexample input. -/
theorem c4_witness :
    ¬(trimL " 正文 ".data).isEmpty ∧ " 正文 ".data ∈ ["第一章".data, " 正文 ".data] :=
  c4_content_verbatim diZhangMatch ["第一章".data, " 正文 ".data]
    ⟨"第一章".data, [" 正文 ".data]⟩ (by decide) _ (by decide)

/-- C8: non-matching lines before the first boundary are collected into an
implicit preface chapter titled 序言; with lines
`["普通文本", "第一章", "正文"]` and pattern `^第.+章` the segmentation
yields exactly the preface followed by `第一章`. -/
theorem c8_preface_example :
    segmentChapters diZhangMatch ["普通文本".data, "第一章".data, "正文".data]
      = [⟨"序言".data, ["普通文本".data]⟩, ⟨"第一章".data, ["正文".data]⟩] := by
  decide

/-- Abstract model of the platform `TextDecoder` for one encoding: `step p c`
decodes chunk `c` with pending (incomplete) bytes `p` carried over
(`decode(c, {stream: true})`), returning the emitted text and the new pending
bytes; `flush p` is the output of a final `decode()` call (replacement
characters for a dangling partial sequence). -/
structure EncodingModel where
  step : List Nat → List Nat → List Char × List Nat
  flush : List Nat → List Char

/-- The WHATWG streaming-decoder contract: decoding nothing emits nothing and
keeps the state, decoding a concatenation equals decoding the pieces in
sequence, and flushing with no pending bytes emits nothing. -/
def LawfulEncoding (E : EncodingModel) : Prop :=
  (∀ p, E.step p [] = ([], p)) ∧
  (∀ p a b, E.step p (a ++ b) =
    ((E.step p a).1 ++ (E.step (E.step p a).2 b).1, (E.step (E.step p a).2 b).2)) ∧
  E.flush [] = []

/-- JS `buffer.split("\n")`. -/
def splitNl : List Char → List (List Char)
  | [] => [[]]
  | c :: cs =>
    if c = '\n' then [] :: splitNl cs
    else
      match splitNl cs with
      | [] => [[c]]
      | s :: ss => (c :: s) :: ss

/-- `buffer.split("\n")` decomposed as the complete segments plus the trailing
remainder, i.e. the pair (`lines`, `buffer`) after `buffer = lines.pop()`. -/
def splitNlAcc : List Char → List (List Char) × List Char
  | [] => ([], [])
  | c :: cs =>
    let r := splitNlAcc cs
    if c = '\n' then ([] :: r.1, r.2)
    else
      match r.1 with
      | [] => ([], c :: r.2)
      | s :: ss => ((c :: s) :: ss, r.2)

/-- JS `line.replace(/\r$/, "")`: drop one trailing carriage return. -/
def stripCR (l : List Char) : List Char :=
  if l.getLast? = some '\r' then l.dropLast else l

/-- The `file.slice(offset, offset + chunkSize)` loop of
`readFileLinesWithEncoding`: the byte source cut into `cs`-sized chunks.
The fuel argument of `chunksOfAux` is a termination bound; with
`fuel = bs.length` and `cs ≥ 1` it is never exhausted (the JS loop diverges
for a zero chunk size, which no caller uses). -/
def chunksOfAux (cs : Nat) : Nat → List Nat → List (List Nat)
  | 0, _ => []
  | _, [] => []
  | fuel + 1, bs => bs.take cs :: chunksOfAux cs fuel (bs.drop cs)

def chunksOf (cs : Nat) (bs : List Nat) : List (List Nat) :=
  chunksOfAux cs bs.length bs

/-- The body of `readFileLinesWithEncoding` (App.vue lines 86-113): decode a
chunk in streaming mode, append to the carry buffer, split on newline, keep
the last piece as the new buffer, yield the complete pieces with a trailing
carriage return stripped; when the source is exhausted, split and yield the
remaining buffer if non-empty.  No `decoder.decode()` flush call is made. -/
def chunkLoop (E : EncodingModel) : List Nat → List Char → List (List Nat) → List (List Char)
  | _, buf, [] => if buf.isEmpty then [] else (splitNl buf).map stripCR
  | p, buf, ck :: cks =>
    let o := E.step p ck
    let segs := splitNl (buf ++ o.1)
    segs.dropLast.map stripCR ++ chunkLoop E o.2 (segs.getLastD []) cks

/-- The full line sequence produced by `readFileLinesWithEncoding` for a byte
source read in `chunkSize`-sized chunks. -/
def readFileLinesWithEncoding (E : EncodingModel) (chunkSize : Nat) (bytes : List Nat) :
    List (List Char) :=
  chunkLoop E [] [] (chunksOf chunkSize bytes)

/-- The body of the older utility `readFileLines` (src/unnamed/part_000): same
carry-buffer splitting, but after the source is exhausted it flushes the
decoder (`buffer += decoder.decode()`) and yields the remaining buffer; lines
are yielded without stripping a trailing carriage return. -/
def readFileLinesLoop (E : EncodingModel) : List Nat → List Char → List (List Nat) → List (List Char)
  | p, buf, [] =>
    let buf2 := buf ++ E.flush p
    if buf2.isEmpty then [] else [buf2]
  | p, buf, ck :: cks =>
    let o := E.step p ck
    let segs := splitNl (buf ++ o.1)
    segs.dropLast ++ readFileLinesLoop E o.2 (segs.getLastD []) cks

def readFileLines (E : EncodingModel) (chunks : List (List Nat)) : List (List Char) :=
  readFileLinesLoop E [] [] chunks

/-- Text emitted by the streaming decoder over the whole source, without the
final flush. -/
def streamText (E : EncodingModel) (bytes : List Nat) : List Char :=
  (E.step [] bytes).1

/-- The decoded text of the whole source: one-shot `decode(bytes)`, i.e.
streaming decode plus the final flush. -/
def fullDecode (E : EncodingModel) (bytes : List Nat) : List Char :=
  (E.step [] bytes).1 ++ E.flush (E.step [] bytes).2

/-- The line sequence the generator produces from a text decoded in one
piece: all newline-split segments with a trailing carriage return stripped,
except that a final empty segment (text ending in a newline, or an empty
text) yields no line. -/
def linesOfText (t : List Char) : List (List Char) :=
  if (splitNl t).getLastD [] = [] then ((splitNl t).dropLast).map stripCR
  else (splitNl t).map stripCR

/-- Concatenate yielded lines with the newline terminator reinserted. -/
def joinNl (ls : List (List Char)) : List Char :=
  List.intercalate ['\n'] ls

/-- Terminator normalization: remove exactly one carriage return before each
newline and at the end of the text — the characters `stripCR` strips. -/
def normCR : List Char → List Char
  | [] => []
  | ['\r'] => []
  | '\r' :: '\n' :: rest => '\n' :: normCR rest
  | c :: rest => c :: normCR rest

/-- Accumulated streaming decode of a chunk list from decoder state `p`. -/
def stepAll (E : EncodingModel) (p : List Nat) : List (List Nat) → List Char × List Nat
  | [] => ([], p)
  | c :: cks =>
    let o := E.step p c
    let r := stepAll E o.2 cks
    (o.1 ++ r.1, r.2)

/-- A single-byte encoding (every byte is one code point, nothing ever
pends): a lawful instance of the decoder contract. -/
def latin1 : EncodingModel :=
  ⟨fun p bs => (bs.map Char.ofNat, p), fun p => p.map Char.ofNat⟩

/-- A double-byte encoding in the style of GBK: bytes below `0x80` are
single-byte code points, a byte `≥ 0x80` is a lead byte consumed together
with the following byte; a dangling lead byte pends across chunks and is
finalized by the flush as U+FFFD.  Used to exhibit the behaviour of the
decoder on a source that ends mid-character. -/
def dbGo : List Nat → List Char × List Nat
  | [] => ([], [])
  | [b] => if b < 128 then ([Char.ofNat b], []) else ([], [b])
  | b1 :: b2 :: rest =>
    if b1 < 128 then
      let r := dbGo (b2 :: rest)
      (Char.ofNat b1 :: r.1, r.2)
    else
      let r := dbGo rest
      (Char.ofNat (19968 + (b1 - 128) * 256 + b2) :: r.1, r.2)

def dbModel : EncodingModel :=
  ⟨fun p bs => dbGo (p ++ bs), fun p => if p.isEmpty then [] else [Char.ofNat 0xFFFD]⟩

theorem splitNl_eq_acc (l : List Char) :
    splitNl l = (splitNlAcc l).1 ++ [(splitNlAcc l).2] := by
  induction l with
  | nil => rfl
  | cons c cs ih =>
    by_cases hc : c = '\n'
    · simp [splitNl, splitNlAcc, hc, ih]
    · simp only [splitNl, splitNlAcc, if_neg hc]
      cases h : (splitNlAcc cs).1 with
      | nil =>
        rw [h] at ih
        simp only [List.nil_append] at ih
        simp [ih]
      | cons s ss =>
        rw [h] at ih
        simp [ih]

theorem splitNl_dropLast (l : List Char) :
    (splitNl l).dropLast = (splitNlAcc l).1 := by
  rw [splitNl_eq_acc]
  exact List.dropLast_concat ..

theorem splitNl_getLastD (l : List Char) :
    (splitNl l).getLastD [] = (splitNlAcc l).2 := by
  rw [splitNl_eq_acc]
  simp [List.getLastD_eq_getLast?]

theorem splitNlAcc_of_no_nl (l : List Char) (h : '\n' ∉ l) : splitNlAcc l = ([], l) := by
  induction l with
  | nil => rfl
  | cons c cs ih =>
    have hc : c ≠ '\n' := fun e => h (e ▸ List.mem_cons_self c cs)
    have ih' := ih (fun hm => h (List.mem_cons_of_mem _ hm))
    simp [splitNlAcc, hc, ih']

theorem no_nl_splitNlAcc_snd (l : List Char) : '\n' ∉ (splitNlAcc l).2 := by
  induction l with
  | nil => simp [splitNlAcc]
  | cons c cs ih =>
    by_cases hc : c = '\n'
    · simpa [splitNlAcc, hc] using ih
    · cases h : (splitNlAcc cs).1 with
      | nil =>
        simp only [splitNlAcc, if_neg hc, h]
        intro hm
        rcases List.mem_cons.1 hm with h' | h'
        · exact hc h'.symm
        · exact ih h'
      | cons s ss =>
        simpa [splitNlAcc, hc, h] using ih

theorem splitNlAcc_append (a b : List Char) :
    splitNlAcc (a ++ b)
      = ((splitNlAcc a).1 ++ (splitNlAcc ((splitNlAcc a).2 ++ b)).1,
         (splitNlAcc ((splitNlAcc a).2 ++ b)).2) := by
  induction a with
  | nil => simp [splitNlAcc]
  | cons c cs ih =>
    have ih1 : (splitNlAcc (cs ++ b)).1
        = (splitNlAcc cs).1 ++ (splitNlAcc ((splitNlAcc cs).2 ++ b)).1 := by rw [ih]
    have ih2 : (splitNlAcc (cs ++ b)).2 = (splitNlAcc ((splitNlAcc cs).2 ++ b)).2 := by
      rw [ih]
    by_cases hc : c = '\n'
    · simp only [List.cons_append, splitNlAcc, if_pos hc, List.append_eq]
      rw [ih1, ih2]
    · simp only [List.cons_append, splitNlAcc, if_neg hc, List.append_eq]
      rw [ih1, ih2]
      cases h : (splitNlAcc cs).1 with
      | nil =>
        simp only [h, List.nil_append]
        cases hx : (splitNlAcc ((splitNlAcc cs).2 ++ b)).1 with
        | nil => simp [splitNlAcc, if_neg hc, hx]
        | cons x xs => simp [splitNlAcc, if_neg hc, hx]
      | cons s ss =>
        simp [splitNlAcc, if_neg hc, h]

theorem linesOfText_eq_acc (t : List Char) :
    linesOfText t = (splitNlAcc t).1.map stripCR
      ++ (if (splitNlAcc t).2 = [] then [] else [stripCR (splitNlAcc t).2]) := by
  unfold linesOfText
  rw [splitNl_getLastD, splitNl_dropLast]
  by_cases h : (splitNlAcc t).2 = []
  · simp [h]
  · rw [if_neg h, if_neg h, splitNl_eq_acc]
    simp

theorem linesOfText_append (u s : List Char) :
    linesOfText (u ++ s)
      = ((splitNl u).dropLast).map stripCR
        ++ linesOfText ((splitNl u).getLastD [] ++ s) := by
  rw [splitNl_dropLast, splitNl_getLastD, linesOfText_eq_acc, linesOfText_eq_acc,
    splitNlAcc_append u s]
  simp [List.append_assoc]

theorem chunkLoop_eq (E : EncodingModel) :
    ∀ (cks : List (List Nat)) (p : List Nat) (buf : List Char), '\n' ∉ buf →
      chunkLoop E p buf cks = linesOfText (buf ++ (stepAll E p cks).1) := by
  intro cks
  induction cks with
  | nil =>
    intro p buf hbuf
    simp only [chunkLoop, stepAll, List.append_nil]
    rw [linesOfText_eq_acc, splitNlAcc_of_no_nl buf hbuf]
    by_cases h : buf = []
    · simp [h]
    · have hs : splitNl buf = [buf] := by
        rw [splitNl_eq_acc, splitNlAcc_of_no_nl buf hbuf]
        rfl
      have : buf.isEmpty = false := by
        simpa [List.isEmpty_iff] using h
      simp [this, hs, h]
  | cons ck cks ih =>
    intro p buf hbuf
    simp only [chunkLoop, stepAll]
    rw [ih _ _ (by rw [splitNl_getLastD]; exact no_nl_splitNlAcc_snd _)]
    rw [← List.append_assoc]
    exact (linesOfText_append (buf ++ (E.step p ck).1)
      (stepAll E (E.step p ck).2 cks).1).symm

theorem stepAll_eq_step (E : EncodingModel) (hE : LawfulEncoding E) :
    ∀ (cks : List (List Nat)) (p : List Nat), stepAll E p cks = E.step p cks.flatten := by
  intro cks
  induction cks with
  | nil =>
    intro p
    simp [stepAll, hE.1 p]
  | cons c cks ih =>
    intro p
    simp only [stepAll, List.flatten_cons]
    rw [ih, hE.2.1 p c cks.flatten]

theorem chunksOfAux_flatten (cs : Nat) (hcs : cs ≠ 0) :
    ∀ (fuel : Nat) (bs : List Nat), bs.length ≤ fuel →
      (chunksOfAux cs fuel bs).flatten = bs := by
  intro fuel
  induction fuel with
  | zero =>
    intro bs h
    have : bs = [] := List.eq_nil_of_length_eq_zero (Nat.le_zero.mp h)
    subst this
    rfl
  | succ n ih =>
    intro bs h
    cases bs with
    | nil => rfl
    | cons b bs' =>
      simp only [chunksOfAux, List.flatten_cons]
      rw [ih]
      · exact List.take_append_drop ..
      · simp only [List.length_drop, List.length_cons] at *
        omega

theorem chunksOf_flatten (cs : Nat) (hcs : cs ≠ 0) (bs : List Nat) :
    (chunksOf cs bs).flatten = bs :=
  chunksOfAux_flatten cs hcs bs.length bs le_rfl

/-- The generator's output depends only on the total streamed text: for any
chunk size ≥ 1 it equals the line sequence computed from the text the
streaming decoder emits over the whole source (without flush, as in the
code). -/
theorem readFileLinesWithEncoding_eq_linesOfText (E : EncodingModel)
    (hE : LawfulEncoding E) (cs : Nat) (hcs : cs ≠ 0) (bytes : List Nat) :
    readFileLinesWithEncoding E cs bytes = linesOfText (streamText E bytes) := by
  unfold readFileLinesWithEncoding streamText
  rw [chunkLoop_eq E _ _ _ (by simp)]
  rw [stepAll_eq_step E hE, chunksOf_flatten cs hcs]
  simp

theorem splitNl_ne_nil (l : List Char) : splitNl l ≠ [] := by
  rw [splitNl_eq_acc]
  simp

theorem splitNl_exists_cons (l : List Char) : ∃ s ss, splitNl l = s :: ss := by
  cases h : splitNl l with
  | nil => exact absurd h (splitNl_ne_nil l)
  | cons s ss => exact ⟨s, ss, rfl⟩

theorem splitNl_cons_nl (rest : List Char) : splitNl ('\n' :: rest) = [] :: splitNl rest := by
  simp [splitNl]

theorem splitNl_cons_ne {c : Char} (hc : c ≠ '\n') {l s : List Char} {ss : List (List Char)}
    (hs : splitNl l = s :: ss) : splitNl (c :: l) = (c :: s) :: ss := by
  simp [splitNl, hc, hs]

theorem stripCR_cons {c : Char} {s : List Char} (h : c ≠ '\r' ∨ s ≠ []) :
    stripCR (c :: s) = c :: stripCR s := by
  cases s with
  | nil =>
    have hc : c ≠ '\r' := by
      rcases h with h | h
      · exact h
      · exact absurd rfl h
    simp [stripCR, hc]
  | cons b bs =>
    unfold stripCR
    rw [List.getLast?_cons_cons]
    by_cases hb : (b :: bs).getLast? = some '\r'
    · rw [if_pos hb, if_pos hb]
      simp [List.dropLast]
    · rw [if_neg hb, if_neg hb]

theorem joinNl_cons (x y : List Char) (ys : List (List Char)) :
    joinNl (x :: y :: ys) = x ++ '\n' :: joinNl (y :: ys) := by
  simp [joinNl, List.intercalate, List.intersperse]

theorem joinNl_cons_cons (c : Char) (x : List Char) (xs : List (List Char)) :
    joinNl ((c :: x) :: xs) = c :: joinNl (x :: xs) := by
  cases xs with
  | nil => simp [joinNl, List.intercalate]
  | cons y ys => rw [joinNl_cons, joinNl_cons, List.cons_append]

theorem joinNl_splitNl (t : List Char) : joinNl (splitNl t) = t := by
  induction t with
  | nil => simp [splitNl, joinNl, List.intercalate]
  | cons c rest ih =>
    by_cases hc : c = '\n'
    · subst hc
      rw [splitNl_cons_nl]
      obtain ⟨s, ss, hs⟩ := splitNl_exists_cons rest
      rw [hs]
      rw [joinNl_cons, ← hs, ih]
      rfl
    · obtain ⟨s, ss, hs⟩ := splitNl_exists_cons rest
      rw [splitNl_cons_ne hc hs, joinNl_cons_cons, ← hs, ih]

theorem joinNl_map_stripCR :
    ∀ (n : Nat) (t : List Char), t.length ≤ n →
      joinNl ((splitNl t).map stripCR) = normCR t := by
  intro n
  induction n with
  | zero =>
    intro t h
    have : t = [] := List.eq_nil_of_length_eq_zero (Nat.le_zero.mp h)
    subst this
    decide
  | succ n ih =>
    intro t h
    cases t with
    | nil => decide
    | cons c rest =>
      have hlen : rest.length ≤ n := by
        simp only [List.length_cons] at h
        omega
      by_cases hc : c = '\n'
      · subst hc
        rw [splitNl_cons_nl]
        obtain ⟨s, ss, hs⟩ := splitNl_exists_cons rest
        rw [hs, List.map_cons, List.map_cons, joinNl_cons, ← List.map_cons, ← hs,
          ih rest hlen]
        simp [normCR, stripCR]
      · by_cases hr : c = '\r'
        · subst hr
          cases rest with
          | nil => decide
          | cons r2 rest2 =>
            by_cases h2 : r2 = '\n'
            · subst h2
              have hsplit2 : splitNl ('\r' :: '\n' :: rest2) = ['\r'] :: splitNl rest2 :=
                splitNl_cons_ne hc (splitNl_cons_nl rest2)
              rw [hsplit2]
              obtain ⟨s2, ss2, hs2⟩ := splitNl_exists_cons rest2
              rw [List.map_cons, hs2, List.map_cons]
              rw [show stripCR ['\r'] = [] from rfl]
              rw [joinNl_cons, ← List.map_cons, ← hs2]
              have hlen2 : rest2.length ≤ n := by
                simp only [List.length_cons] at h
                omega
              rw [ih rest2 hlen2]
              simp [normCR]
            · -- c = '\r', next char not a newline: first segment of rest is non-empty
              obtain ⟨s', ss', hs'⟩ := splitNl_exists_cons rest2
              have hsr : splitNl (r2 :: rest2) = (r2 :: s') :: ss' :=
                splitNl_cons_ne h2 hs'
              rw [splitNl_cons_ne hc hsr, List.map_cons,
                stripCR_cons (Or.inr (by simp)), joinNl_cons_cons, ← List.map_cons, ← hsr,
                ih _ hlen]
              simp [normCR, h2]
        · obtain ⟨s, ss, hs⟩ := splitNl_exists_cons rest
          rw [splitNl_cons_ne hc hs, List.map_cons, stripCR_cons (Or.inl hr),
            joinNl_cons_cons, ← List.map_cons, ← hs, ih rest hlen]
          cases rest with
          | nil => simp [normCR, hr]
          | cons r2 rest2 =>
            by_cases h2 : r2 = '\n' <;> simp [normCR, hr, h2]

theorem splitNlAcc_concat_nl (v : List Char) (hv : '\n' ∉ v) :
    splitNlAcc (v ++ ['\n']) = ([v], []) := by
  induction v with
  | nil => rfl
  | cons d v' ih =>
    have hd : d ≠ '\n' := fun e => hv (e ▸ List.mem_cons_self d v')
    have ih' := ih (fun hm => hv (List.mem_cons_of_mem _ hm))
    simp [splitNlAcc, hd, ih']

theorem lastSeg_empty_iff (t : List Char) :
    (splitNlAcc t).2 = [] ↔ (t = [] ∨ t.getLast? = some '\n') := by
  induction t using List.reverseRecOn with
  | nil => simp [splitNlAcc]
  | append_singleton u c _ =>
    rw [splitNlAcc_append u [c]]
    by_cases hc : c = '\n'
    · subst hc
      rw [splitNlAcc_concat_nl _ (no_nl_splitNlAcc_snd u)]
      simp
    · have hnn : '\n' ∉ (splitNlAcc u).2 ++ [c] := by
        intro hm
        rcases List.mem_append.1 hm with h | h
        · exact no_nl_splitNlAcc_snd u h
        · exact hc (List.mem_singleton.1 h).symm
      rw [splitNlAcc_of_no_nl _ hnn]
      simp [hc]

theorem joinNl_append_nilseg (X : List (List Char)) (hX : X ≠ []) :
    joinNl (X ++ [[]]) = joinNl X ++ ['\n'] := by
  induction X with
  | nil => exact absurd rfl hX
  | cons x xs ih =>
    cases xs with
    | nil => simp [joinNl, List.intercalate, List.intersperse]
    | cons y ys =>
      have h := ih (by simp)
      rw [List.cons_append, List.cons_append, joinNl_cons x y (ys ++ [[]]),
        ← List.cons_append, h, joinNl_cons]
      simp

theorem acc_nil_nil (t : List Char) (h1 : (splitNlAcc t).1 = [])
    (h2 : (splitNlAcc t).2 = []) : t = [] := by
  have h := joinNl_splitNl t
  rw [splitNl_eq_acc, h1, h2] at h
  rw [← h]
  rfl

theorem joinNl_linesOfText (t : List Char) :
    joinNl (linesOfText t) ++ (if t.getLast? = some '\n' then ['\n'] else [])
      = normCR t := by
  rw [linesOfText_eq_acc]
  by_cases h2 : (splitNlAcc t).2 = []
  · rw [if_pos h2]
    simp only [List.append_nil]
    by_cases ht : t = []
    · subst ht
      decide
    · have hc : t.getLast? = some '\n' := by
        rcases (lastSeg_empty_iff t).1 h2 with h | h
        · exact absurd h ht
        · exact h
      rw [if_pos hc, ← joinNl_map_stripCR t.length t le_rfl, splitNl_eq_acc, h2,
        List.map_append]
      have hne : (splitNlAcc t).1.map stripCR ≠ [] := by
        intro hmap
        exact ht (acc_nil_nil t (by simpa using hmap) h2)
      rw [show List.map stripCR [([] : List Char)] = [[]] from rfl,
        joinNl_append_nilseg _ hne]
  · rw [if_neg h2]
    have hc : ¬(t.getLast? = some '\n') := by
      intro hl
      exact h2 ((lastSeg_empty_iff t).2 (Or.inr hl))
    rw [if_neg hc]
    simp only [List.append_nil]
    rw [← joinNl_map_stripCR t.length t le_rfl, splitNl_eq_acc, List.map_append]
    rfl

theorem latin1_lawful : LawfulEncoding latin1 := by
  refine ⟨fun p => rfl, fun p a b => ?_, rfl⟩
  simp [latin1]

/-- C1 counterexample to the claim as stated: with a double-byte encoding and
the one-byte source `[0x80]` (a file ending mid-character), the generator
yields no line at all — because the decoder is never flushed — while decoding
the whole source as a single chunk (a one-shot `decode`) yields the
replacement character as one line; the concatenation of the yielded lines
also fails to reconstruct the decoded text. -/
theorem c1_counterexample :
    readFileLinesWithEncoding dbModel 65536 [0x80]
        ≠ linesOfText (fullDecode dbModel [0x80])
    ∧ readFileLinesWithEncoding dbModel 65536 [0x80] = []
    ∧ fullDecode dbModel [0x80] = [Char.ofNat 0xFFFD]
    ∧ joinNl (readFileLinesWithEncoding dbModel 65536 [0x80])
        ≠ normCR (fullDecode dbModel [0x80]) := by
  refine ⟨?_, ?_, ?_, ?_⟩ <;> decide

/-- C1 (amended): for every encoding whose platform decoder satisfies the
streaming contract and every byte source that does not end mid-character (no
partial multi-byte sequence pends after the last byte — required because the
code never flushes the decoder, see C3), for every chunk size 1..65536 the
line sequence produced by `readFileLinesWithEncoding` equals the line
sequence obtained from decoding the whole source as a single chunk, and
concatenating the yielded lines with a newline (restoring the final newline
when the decoded text ends with one) reconstructs the decoded text exactly up
to terminator normalization (`normCR`: one carriage return removed before
each newline and at end of text). -/
theorem c1_decoder_invariance (E : EncodingModel) (hE : LawfulEncoding E)
    (bytes : List Nat) (hpend : (E.step [] bytes).2 = [])
    (cs : Nat) (h1 : 1 ≤ cs) (h2 : cs ≤ 65536) :
    readFileLinesWithEncoding E cs bytes = linesOfText (fullDecode E bytes)
    ∧ joinNl (readFileLinesWithEncoding E cs bytes)
        ++ (if (fullDecode E bytes).getLast? = some '\n' then ['\n'] else [])
      = normCR (fullDecode E bytes) := by
  have hfd : fullDecode E bytes = streamText E bytes := by
    unfold fullDecode streamText
    rw [hpend, hE.2.2, List.append_nil]
  have heq := readFileLinesWithEncoding_eq_linesOfText E hE cs (by omega) bytes
  rw [hfd, heq]
  exact ⟨rfl, joinNl_linesOfText _⟩

/-- C1 witness: the amended theorem applied to the single-byte encoding and
the source `"ab\r\nc"` read in 3-byte chunks. -/
theorem c1_witness :
    LawfulEncoding latin1
    ∧ (latin1.step [] [97, 98, 13, 10, 99]).2 = []
    ∧ 1 ≤ 3 ∧ 3 ≤ 65536
    ∧ (readFileLinesWithEncoding latin1 3 [97, 98, 13, 10, 99]
          = linesOfText (fullDecode latin1 [97, 98, 13, 10, 99])
        ∧ joinNl (readFileLinesWithEncoding latin1 3 [97, 98, 13, 10, 99])
            ++ (if (fullDecode latin1 [97, 98, 13, 10, 99]).getLast? = some '\n'
                then ['\n'] else [])
          = normCR (fullDecode latin1 [97, 98, 13, 10, 99])) :=
  ⟨latin1_lawful, rfl, by decide, by decide,
    c1_decoder_invariance latin1 latin1_lawful [97, 98, 13, 10, 99] rfl 3
      (by decide) (by decide)⟩

/-- C3 (code bug): after the byte source is exhausted,
`readFileLinesWithEncoding` processes the remaining buffer without ever
calling `decoder.decode()` to flush, so a pending partial multi-byte
sequence is silently dropped: on the source `[0x80]` (ends mid-character)
it yields no line although the decoded text of the source is the
replacement character; the repository's own flushing reader
`readFileLines` (src/unnamed/part_000) yields exactly that text. -/
theorem c3_flush_missing :
    readFileLinesWithEncoding dbModel 65536 [0x80] = []
    ∧ fullDecode dbModel [0x80] = [Char.ofNat 0xFFFD]
    ∧ readFileLines dbModel [[0x80]] = [[Char.ofNat 0xFFFD]] := by
  refine ⟨?_, ?_, ?_⟩ <;> decide

/-- One global-replace pass of JS `String.replace(/c/g, rep)`. -/
def replaceChar (c : Char) (rep : List Char) (l : List Char) : List Char :=
  l.flatMap fun x => if x = c then rep else [x]

/-- `escapeXml` (App.vue lines 367-374): the five sequential global replaces,
ampersand first. -/
def escapeXmlList (l : List Char) : List Char :=
  replaceChar '\x27' "&apos;".data
    (replaceChar '\"' "&quot;".data
      (replaceChar '>' "&gt;".data
        (replaceChar '<' "&lt;".data
          (replaceChar '&' "&amp;".data l))))

def escapeXml (text : String) : String :=
  String.mk (escapeXmlList text.data)

/-- Per-character specification of the escaping: each special character maps
to its entity reference, all others are kept. -/
def escChar (x : Char) : List Char :=
  if x = '&' then "&amp;".data
  else if x = '<' then "&lt;".data
  else if x = '>' then "&gt;".data
  else if x = '\"' then "&quot;".data
  else if x = '\x27' then "&apos;".data
  else [x]

/-- Scanner accepting exactly the strings in which every ampersand starts one
of the five entity references produced by `escapeXml`. -/
def ampOk : List Char → Bool
  | [] => true
  | '&' :: rest =>
    (["amp;", "lt;", "gt;", "quot;", "apos;"].any fun e => e.data.isPrefixOf rest)
      && ampOk rest
  | _ :: rest => ampOk rest

/-- An archive entry as created by `zip.file(name, content, options)`;
`compression` records an explicit compression option (the code sets
`{ compression: "STORE" }` only on `mimetype`). -/
structure ZipEntry where
  name : String
  content : String
  compression : Option String
deriving DecidableEq, Repr

def containerXml : String :=
  "<?xml version=\"1.0\" encoding=\"UTF-8\"?>\n        <container version=\"1.0\" xmlns=\"urn:oasis:names:tc:opendocument:xmlns:container\">\n          <rootfiles>\n            <rootfile full-path=\"OEBPS/content.opf\" media-type=\"application/oebps-package+xml\"/>\n          </rootfiles>\n        </container>"

def manifestItemStr (i : Nat) : String :=
  "<item id=\"chapter" ++ Nat.repr i ++ "\" href=\"chapter" ++ Nat.repr i
    ++ ".xhtml\" media-type=\"application/xhtml+xml\"/>"

def manifestItems (n : Nat) : String :=
  String.intercalate "\n" ((List.range n).map manifestItemStr)

def spineItemStr (i : Nat) : String :=
  "<itemref idref=\"chapter" ++ Nat.repr i ++ "\"/>"

def spineItems (n : Nat) : String :=
  String.intercalate "\n" ((List.range n).map spineItemStr)

/-- The fixed text of `content.opf` before the `dc:identifier` value
(title and author already escaped on insertion). -/
def opfIdPre (title author : String) : String :=
  "<?xml version=\"1.0\" encoding=\"UTF-8\"?>\n          <package xmlns=\"http://www.idpf.org/2007/opf\" version=\"3.0\" unique-identifier=\"BookId\">\n            <metadata xmlns:dc=\"http://purl.org/dc/elements/1.1/\">\n              <dc:title>"
    ++ escapeXml title
    ++ "</dc:title>\n              <dc:creator>"
    ++ escapeXml author
    ++ "</dc:creator>\n              <dc:language>zh</dc:language>\n              <dc:identifier id=\"BookId\">"

/-- The text of `content.opf` after the `dc:identifier` value: manifest and
spine items for `n` chapters, in index order. -/
def opfIdPost (n : Nat) : String :=
  "</dc:identifier>\n            </metadata>\n            <manifest>\n              <item id=\"ncx\" href=\"toc.ncx\" media-type=\"application/x-dtbncx+xml\"/>\n              <item id=\"style\" href=\"style.css\" media-type=\"text/css\"/>\n          "
    ++ manifestItems n
    ++ "\n            </manifest>\n            <spine toc=\"ncx\">\n          "
    ++ spineItems n
    ++ "\n            </spine>\n          </package>"

/-- `OEBPS/content.opf` as assembled by `generateEpub` (App.vue lines
260-279); `now1` is the `Date.now()` reading interpolated as
`dc:identifier`. -/
def contentOpf (title author : String) (n : Nat) (now1 : Nat) : String :=
  opfIdPre title author ++ Nat.repr now1 ++ opfIdPost n

def navPointStr (i : Nat) (ch : Chapter) : String :=
  "<navPoint id=\"chapter" ++ Nat.repr i ++ "\" playOrder=\"" ++ Nat.repr (i + 1)
    ++ "\">\n              <navLabel><text>"
    ++ escapeXml (String.mk ch.title)
    ++ "</text></navLabel>\n              <content src=\"chapter" ++ Nat.repr i
    ++ ".xhtml\"/>\n            </navPoint>"

def navPoints (chapters : List Chapter) : String :=
  String.intercalate "\n" (chapters.enum.map fun x => navPointStr x.1 x.2)

/-- The fixed text of `toc.ncx` before the `dtb:uid` value. -/
def ncxUidPre : String :=
  "<?xml version=\"1.0\" encoding=\"UTF-8\"?>\n        <ncx xmlns=\"http://www.daisy.org/z3986/2005/ncx/\" version=\"2005-1\">\n          <head>\n            <meta name=\"dtb:uid\" content=\""

/-- The text of `toc.ncx` after the `dtb:uid` value. -/
def ncxUidPost (title : String) (chapters : List Chapter) : String :=
  "\"/>\n            <meta name=\"dtb:depth\" content=\"1\"/>\n          </head>\n          <docTitle><text>"
    ++ escapeXml title
    ++ "</text></docTitle>\n          <navMap>"
    ++ navPoints chapters
    ++ "</navMap>\n        </ncx>"

/-- `OEBPS/toc.ncx` as assembled by `generateEpub` (App.vue lines 292-303);
`now2` is the second `Date.now()` reading, interpolated as `dtb:uid`. -/
def tocNcx (title : String) (chapters : List Chapter) (now2 : Nat) : String :=
  ncxUidPre ++ Nat.repr now2 ++ ncxUidPost title chapters

def styleCss : String :=
  "body \x7b\n          font-family: \"Noto Serif SC\", \"SimSun\", serif;\n          line-height: 1.8;\n          margin: 2em;\n        \x7d\n        h1 \x7b\n          text-align: center;\n          font-size: 1.5em;\n          margin: 2em 0 1em 0;\n        \x7d\n        p \x7b\n          text-indent: 2em;\n          margin: 0.5em 0;\n        \x7d"

def chapterXhtml (ch : Chapter) : String :=
  "<?xml version=\"1.0\" encoding=\"UTF-8\"?>\n          <!DOCTYPE html>\n          <html xmlns=\"http://www.w3.org/1999/xhtml\">\n          <head>\n            <title>"
    ++ escapeXml (String.mk ch.title)
    ++ "</title>\n            <link rel=\"stylesheet\" type=\"text/css\" href=\"style.css\"/>\n          </head>\n          <body>\n            <h1>"
    ++ escapeXml (String.mk ch.title)
    ++ "</h1>\n            "
    ++ String.intercalate "\n"
        (ch.content.map fun line => "<p>" ++ escapeXml (String.mk line) ++ "</p>")
    ++ "\n          </body>\n          </html>"

/-- The archive assembled by `generateEpub` (App.vue lines 230-345), entries
in `zip.file` call order; `now1` and `now2` are the two independent
`Date.now()` readings taken while writing `content.opf` and `toc.ncx`. -/
def buildArchive (title author : String) (chapters : List Chapter)
    (now1 now2 : Nat) : List ZipEntry :=
  [⟨"mimetype", "application/epub+zip", some "STORE"⟩,
   ⟨"META-INF/container.xml", containerXml, none⟩,
   ⟨"OEBPS/content.opf", contentOpf title author chapters.length now1, none⟩,
   ⟨"OEBPS/toc.ncx", tocNcx title chapters now2, none⟩,
   ⟨"OEBPS/style.css", styleCss, none⟩]
  ++ chapters.enum.map
      (fun x => ⟨"OEBPS/chapter" ++ Nat.repr x.1 ++ ".xhtml", chapterXhtml x.2, none⟩)

/-- The zero-chapter check and archive construction of `generateEpub`
(App.vue lines 224-235): with no chapters the function alerts and returns —
no archive is built or offered; otherwise the complete archive is produced.
Any thrown error is caught before the download step, so a partial archive is
never offered; the model returns `none` or a complete archive. -/
def generateEpubResult (p : List Char → Bool) (lines : List (List Char))
    (title author : String) (now1 now2 : Nat) : Option (List ZipEntry) :=
  if (segmentChapters p lines).length = 0 then none
  else some (buildArchive title author (segmentChapters p lines) now1 now2)

theorem replaceChar_append (c : Char) (rep : List Char) (a b : List Char) :
    replaceChar c rep (a ++ b) = replaceChar c rep a ++ replaceChar c rep b := by
  simp [replaceChar]

theorem escapeXmlList_append (a b : List Char) :
    escapeXmlList (a ++ b) = escapeXmlList a ++ escapeXmlList b := by
  simp [escapeXmlList, replaceChar_append]

theorem escapeXmlList_single (x : Char) : escapeXmlList [x] = escChar x := by
  by_cases h1 : x = '&'
  · subst h1; decide
  by_cases h2 : x = '<'
  · subst h2; decide
  by_cases h3 : x = '>'
  · subst h3; decide
  by_cases h4 : x = '\"'
  · subst h4; decide
  by_cases h5 : x = '\x27'
  · subst h5; decide
  simp [escapeXmlList, replaceChar, escChar, h1, h2, h3, h4, h5]

theorem escapeXmlList_eq_flatMap (l : List Char) :
    escapeXmlList l = l.flatMap escChar := by
  induction l with
  | nil => rfl
  | cons x l ih =>
    have h := escapeXmlList_append [x] l
    simp only [List.singleton_append] at h
    rw [h, escapeXmlList_single, ih, List.flatMap_cons]

theorem escChar_not_special (a : Char) :
    '<' ∉ escChar a ∧ '>' ∉ escChar a ∧ '\"' ∉ escChar a ∧ '\x27' ∉ escChar a := by
  unfold escChar
  split_ifs with h1 h2 h3 h4 h5
  · decide
  · decide
  · decide
  · decide
  · decide
  · refine ⟨?_, ?_, ?_, ?_⟩ <;> intro hm
    · exact h2 (List.mem_singleton.1 hm).symm
    · exact h3 (List.mem_singleton.1 hm).symm
    · exact h4 (List.mem_singleton.1 hm).symm
    · exact h5 (List.mem_singleton.1 hm).symm

theorem escapeXmlList_no_special (l : List Char) :
    '<' ∉ escapeXmlList l ∧ '>' ∉ escapeXmlList l ∧ '\"' ∉ escapeXmlList l
      ∧ '\x27' ∉ escapeXmlList l := by
  rw [escapeXmlList_eq_flatMap]
  refine ⟨?_, ?_, ?_, ?_⟩ <;> intro hm
  · rcases List.mem_flatMap.1 hm with ⟨a, _, ha⟩
    exact (escChar_not_special a).1 ha
  · rcases List.mem_flatMap.1 hm with ⟨a, _, ha⟩
    exact (escChar_not_special a).2.1 ha
  · rcases List.mem_flatMap.1 hm with ⟨a, _, ha⟩
    exact (escChar_not_special a).2.2.1 ha
  · rcases List.mem_flatMap.1 hm with ⟨a, _, ha⟩
    exact (escChar_not_special a).2.2.2 ha

theorem ampOk_escChar (x : Char) (rest : List Char) :
    ampOk (escChar x ++ rest) = ampOk rest := by
  unfold escChar
  split_ifs with h1 h2 h3 h4 h5
  · show ampOk ('&' :: 'a' :: 'm' :: 'p' :: ';' :: rest) = ampOk rest
    simp [ampOk, List.isPrefixOf]
  · show ampOk ('&' :: 'l' :: 't' :: ';' :: rest) = ampOk rest
    simp [ampOk, List.isPrefixOf]
  · show ampOk ('&' :: 'g' :: 't' :: ';' :: rest) = ampOk rest
    simp [ampOk, List.isPrefixOf]
  · show ampOk ('&' :: 'q' :: 'u' :: 'o' :: 't' :: ';' :: rest) = ampOk rest
    simp [ampOk, List.isPrefixOf]
  · show ampOk ('&' :: 'a' :: 'p' :: 'o' :: 's' :: ';' :: rest) = ampOk rest
    simp [ampOk, List.isPrefixOf]
  · show ampOk (x :: rest) = ampOk rest
    simp [ampOk, h1]

theorem ampOk_escapeXmlList (l : List Char) : ampOk (escapeXmlList l) = true := by
  induction l with
  | nil => rfl
  | cons x l ih =>
    rw [escapeXmlList_eq_flatMap, List.flatMap_cons, ampOk_escChar,
      ← escapeXmlList_eq_flatMap, ih]

/-- A chapter whose user-supplied strings have already been escaped. -/
structure ChapterEsc where
  titleEsc : String
  contentEsc : List String
deriving DecidableEq, Repr

def escChapterS (ch : Chapter) : ChapterEsc :=
  ⟨escapeXml (String.mk ch.title), ch.content.map fun l => escapeXml (String.mk l)⟩

/-- `content.opf` template over pre-escaped insertions. -/
def opfIdPreEsc (titleEsc authorEsc : String) : String :=
  "<?xml version=\"1.0\" encoding=\"UTF-8\"?>\n          <package xmlns=\"http://www.idpf.org/2007/opf\" version=\"3.0\" unique-identifier=\"BookId\">\n            <metadata xmlns:dc=\"http://purl.org/dc/elements/1.1/\">\n              <dc:title>"
    ++ titleEsc
    ++ "</dc:title>\n              <dc:creator>"
    ++ authorEsc
    ++ "</dc:creator>\n              <dc:language>zh</dc:language>\n              <dc:identifier id=\"BookId\">"

def contentOpfEsc (titleEsc authorEsc : String) (n : Nat) (now1 : Nat) : String :=
  opfIdPreEsc titleEsc authorEsc ++ Nat.repr now1 ++ opfIdPost n

/-- `navPoint` template over a pre-escaped chapter title. -/
def navPointEsc (i : Nat) (titleEsc : String) : String :=
  "<navPoint id=\"chapter" ++ Nat.repr i ++ "\" playOrder=\"" ++ Nat.repr (i + 1)
    ++ "\">\n              <navLabel><text>"
    ++ titleEsc
    ++ "</text></navLabel>\n              <content src=\"chapter" ++ Nat.repr i
    ++ ".xhtml\"/>\n            </navPoint>"

def navPointsEsc (chapters : List ChapterEsc) : String :=
  String.intercalate "\n" (chapters.enum.map fun x => navPointEsc x.1 x.2.titleEsc)

def ncxUidPostEsc (titleEsc : String) (chapters : List ChapterEsc) : String :=
  "\"/>\n            <meta name=\"dtb:depth\" content=\"1\"/>\n          </head>\n          <docTitle><text>"
    ++ titleEsc
    ++ "</text></docTitle>\n          <navMap>"
    ++ navPointsEsc chapters
    ++ "</navMap>\n        </ncx>"

def tocNcxEsc (titleEsc : String) (chapters : List ChapterEsc) (now2 : Nat) : String :=
  ncxUidPre ++ Nat.repr now2 ++ ncxUidPostEsc titleEsc chapters

/-- Chapter XHTML template over pre-escaped insertions. -/
def chapterXhtmlEsc (ch : ChapterEsc) : String :=
  "<?xml version=\"1.0\" encoding=\"UTF-8\"?>\n          <!DOCTYPE html>\n          <html xmlns=\"http://www.w3.org/1999/xhtml\">\n          <head>\n            <title>"
    ++ ch.titleEsc
    ++ "</title>\n            <link rel=\"stylesheet\" type=\"text/css\" href=\"style.css\"/>\n          </head>\n          <body>\n            <h1>"
    ++ ch.titleEsc
    ++ "</h1>\n            "
    ++ String.intercalate "\n" (ch.contentEsc.map fun line => "<p>" ++ line ++ "</p>")
    ++ "\n          </body>\n          </html>"

/-- The archive templates over pre-escaped user strings: every user-supplied
string in `buildArchive` enters a document only through this function, after
passing through `escapeXml`. -/
def buildArchiveEsc (titleEsc authorEsc : String) (chapters : List ChapterEsc)
    (now1 now2 : Nat) : List ZipEntry :=
  [⟨"mimetype", "application/epub+zip", some "STORE"⟩,
   ⟨"META-INF/container.xml", containerXml, none⟩,
   ⟨"OEBPS/content.opf", contentOpfEsc titleEsc authorEsc chapters.length now1, none⟩,
   ⟨"OEBPS/toc.ncx", tocNcxEsc titleEsc chapters now2, none⟩,
   ⟨"OEBPS/style.css", styleCss, none⟩]
  ++ chapters.enum.map
      (fun x => ⟨"OEBPS/chapter" ++ Nat.repr x.1 ++ ".xhtml", chapterXhtmlEsc x.2, none⟩)

theorem contentOpf_eq_esc (t a : String) (n n1 : Nat) :
    contentOpf t a n n1 = contentOpfEsc (escapeXml t) (escapeXml a) n n1 := rfl

theorem navPointStr_eq_esc (i : Nat) (ch : Chapter) :
    navPointStr i ch = navPointEsc i (escChapterS ch).titleEsc := rfl

theorem navPoints_eq_esc (chs : List Chapter) :
    navPoints chs = navPointsEsc (chs.map escChapterS) := by
  unfold navPoints navPointsEsc
  rw [List.enum_map, List.map_map]
  rfl

theorem tocNcx_eq_esc (t : String) (chs : List Chapter) (n2 : Nat) :
    tocNcx t chs n2 = tocNcxEsc (escapeXml t) (chs.map escChapterS) n2 := by
  unfold tocNcx tocNcxEsc ncxUidPost ncxUidPostEsc
  rw [navPoints_eq_esc]

theorem chapterXhtml_eq_esc (ch : Chapter) :
    chapterXhtml ch = chapterXhtmlEsc (escChapterS ch) := by
  unfold chapterXhtml chapterXhtmlEsc escChapterS
  rw [List.map_map]
  rfl

theorem buildArchive_eq_esc (t a : String) (chs : List Chapter) (n1 n2 : Nat) :
    buildArchive t a chs n1 n2
      = buildArchiveEsc (escapeXml t) (escapeXml a) (chs.map escChapterS) n1 n2 := by
  unfold buildArchive buildArchiveEsc
  rw [List.length_map, contentOpf_eq_esc, tocNcx_eq_esc, List.enum_map, List.map_map]
  refine congrArg _ (List.map_congr_left ?_)
  intro x _
  simp only [Function.comp]
  rw [chapterXhtml_eq_esc]
  rfl

def parseDec (l : List Char) : Nat :=
  l.foldl (fun a c => 10 * a + (c.toNat - 48)) 0

theorem parseDec_toDigitsCore :
    ∀ (f n : Nat) (ds : List Char), n < 10 ^ f →
      List.foldl (fun a c => 10 * a + (c.toNat - 48)) 0 (Nat.toDigitsCore 10 f n ds)
        = List.foldl (fun a c => 10 * a + (c.toNat - 48)) n ds := by
  have hd : ∀ m, m < 10 → (Nat.digitChar m).toNat - 48 = m := by decide
  intro f
  induction f with
  | zero =>
    intro n ds h
    simp only [pow_zero, Nat.lt_one_iff] at h
    subst h
    rfl
  | succ f ih =>
    intro n ds h
    simp only [Nat.toDigitsCore]
    by_cases h0 : n / 10 = 0
    · rw [if_pos h0]
      simp only [List.foldl_cons]
      rw [hd (n % 10) (Nat.mod_lt n (by norm_num))]
      have : n = n % 10 := by omega
      rw [Nat.mul_zero, Nat.zero_add, ← this]
    · rw [if_neg h0]
      rw [ih (n / 10) (Nat.digitChar (n % 10) :: ds) (by
        have h10 : (10 : Nat) ^ (f + 1) = 10 * 10 ^ f := by ring
        rw [h10] at h
        omega)]
      simp only [List.foldl_cons]
      rw [hd (n % 10) (Nat.mod_lt n (by omega))]
      rw [Nat.div_add_mod]

theorem parseDec_repr (n : Nat) : parseDec (Nat.repr n).data = n := by
  have h : n < 10 ^ (n + 1) := by
    calc n < 10 ^ n := Nat.lt_pow_self (by norm_num) n
    _ ≤ 10 ^ (n + 1) := Nat.pow_le_pow_right (by norm_num) (Nat.le_succ n)
  have hdata : (Nat.repr n).data = Nat.toDigitsCore 10 (n + 1) n [] := rfl
  rw [hdata]
  unfold parseDec
  rw [parseDec_toDigitsCore (n + 1) n [] h]
  rfl

theorem natRepr_inj {m n : Nat} : Nat.repr m = Nat.repr n ↔ m = n := by
  constructor
  · intro h
    have := parseDec_repr m
    rw [h, parseDec_repr n] at this
    exact this.symm
  · intro h
    rw [h]

/-- C5: for every non-empty chapter list the archive built by `generateEpub`
has exactly the entries `mimetype`, `META-INF/container.xml`,
`OEBPS/content.opf`, `OEBPS/toc.ncx`, `OEBPS/style.css` and one
`OEBPS/chapter{i}.xhtml` per chapter with `i` in `0..chapterCount-1` (in that
logical order, `mimetype` first); the `mimetype` entry holds the literal text
`application/epub+zip` and is stored with explicit `STORE` (no) compression;
and `content.opf` decomposes around a spine block whose itemrefs enumerate
the chapters in source (index) order. -/
theorem c5_archive_structure (t a : String) (chs : List Chapter) (n1 n2 : Nat)
    (_hne : chs ≠ []) :
    (buildArchive t a chs n1 n2).map ZipEntry.name
        = ["mimetype", "META-INF/container.xml", "OEBPS/content.opf",
            "OEBPS/toc.ncx", "OEBPS/style.css"]
          ++ (List.range chs.length).map
              (fun i => "OEBPS/chapter" ++ Nat.repr i ++ ".xhtml")
    ∧ (buildArchive t a chs n1 n2).head?
        = some ⟨"mimetype", "application/epub+zip", some "STORE"⟩
    ∧ contentOpf t a chs.length n1
        = opfIdPre t a ++ Nat.repr n1 ++ opfIdPost chs.length
    ∧ spineItems chs.length
        = String.intercalate "\n" ((List.range chs.length).map spineItemStr) := by
  refine ⟨?_, rfl, rfl, rfl⟩
  unfold buildArchive
  rw [List.map_append]
  congr 1
  rw [List.map_map]
  have h : ((List.range chs.length).map fun i => "OEBPS/chapter" ++ Nat.repr i ++ ".xhtml")
      = (chs.enum.map Prod.fst).map fun i => "OEBPS/chapter" ++ Nat.repr i ++ ".xhtml" := by
    rw [List.enum_map_fst]
  rw [h, List.map_map]
  rfl

/-- C5 witness: a one-chapter book. -/
theorem c5_witness :
    ([(⟨"T".data, ["x".data]⟩ : Chapter)] ≠ [])
    ∧ (buildArchive "b" "au" [⟨"T".data, ["x".data]⟩] 5 6).map ZipEntry.name
        = ["mimetype", "META-INF/container.xml", "OEBPS/content.opf",
            "OEBPS/toc.ncx", "OEBPS/style.css"]
          ++ (List.range ([(⟨"T".data, ["x".data]⟩ : Chapter)].length)).map
              (fun i => "OEBPS/chapter" ++ Nat.repr i ++ ".xhtml") :=
  ⟨by decide,
    (c5_archive_structure "b" "au" [⟨"T".data, ["x".data]⟩] 5 6 (by decide)).1⟩

/-- C6: `escapeXml` output contains no raw `<`, `>`, `"` or `'`, and every
ampersand in it begins one of the five entity references; and every
user-supplied string (book title, author, chapter titles, chapter content
lines) enters the generated documents of the archive only through
`escapeXml`, i.e. the archive equals the pure templates applied to the
escaped strings. -/
theorem c6_xml_escaping :
    (∀ l : List Char,
        '<' ∉ escapeXmlList l ∧ '>' ∉ escapeXmlList l ∧ '\"' ∉ escapeXmlList l
          ∧ '\x27' ∉ escapeXmlList l ∧ ampOk (escapeXmlList l) = true)
    ∧ ∀ (t a : String) (chs : List Chapter) (n1 n2 : Nat),
        buildArchive t a chs n1 n2
          = buildArchiveEsc (escapeXml t) (escapeXml a) (chs.map escChapterS) n1 n2 := by
  constructor
  · intro l
    obtain ⟨h1, h2, h3, h4⟩ := escapeXmlList_no_special l
    exact ⟨h1, h2, h3, h4, ampOk_escapeXmlList l⟩
  · exact buildArchive_eq_esc

/-- C6 witness: the sanitizer at a concrete input holding all five special
characters. -/
theorem c6_witness :
    '<' ∉ escapeXmlList "<a&b>'c\"".data
    ∧ ampOk (escapeXmlList "<a&b>'c\"".data) = true :=
  ⟨(c6_xml_escaping.1 "<a&b>'c\"".data).1,
    (c6_xml_escaping.1 "<a&b>'c\"".data).2.2.2.2⟩

/-- C9: if segmentation yields zero chapters, `generateEpub` reports and
returns with no archive built (`none`); otherwise the result is the one
complete archive — never a partial one (the download step runs only after
the whole archive is produced; any error before it aborts the attempt). -/
theorem c9_empty_abort (p : List Char → Bool) (lines : List (List Char))
    (t a : String) (n1 n2 : Nat) :
    (generateEpubResult p lines t a n1 n2 = none ↔ segmentChapters p lines = [])
    ∧ ∀ arch, generateEpubResult p lines t a n1 n2 = some arch →
        arch = buildArchive t a (segmentChapters p lines) n1 n2 := by
  unfold generateEpubResult
  constructor
  · by_cases h : (segmentChapters p lines).length = 0
    · simp [h, List.length_eq_zero.1 h]
    · rw [if_neg h]
      rw [← List.length_eq_zero]
      simp [h]
  · intro arch harch
    by_cases h : (segmentChapters p lines).length = 0
    · rw [if_pos h] at harch
      exact absurd harch (by simp)
    · rw [if_neg h] at harch
      exact (Option.some.inj harch).symm

/-- C9 witness: an all-blank input yields zero chapters and no archive. -/
theorem c9_witness :
    generateEpubResult diZhangMatch [[]] "t" "a" 1 2 = none ↔
      segmentChapters diZhangMatch [[]] = [] :=
  (c9_empty_abort diZhangMatch [[]] "t" "a" 1 2).1

/-- C10: within one `generateEpub` call the `dc:identifier` embedded in
`content.opf` renders the first `Date.now()` reading and the `dtb:uid`
embedded in `toc.ncx` renders the second, independent reading; the two
embedded decimal strings are equal exactly when the two readings are equal;
and the archive is a function of title, author, chapters and the two
readings only. -/
theorem c10_identifiers (t a : String) (chs : List Chapter) (n1 n2 : Nat) :
    (buildArchive t a chs n1 n2).find? (fun e => e.name == "OEBPS/content.opf")
        = some ⟨"OEBPS/content.opf",
            opfIdPre t a ++ Nat.repr n1 ++ opfIdPost chs.length, none⟩
    ∧ (buildArchive t a chs n1 n2).find? (fun e => e.name == "OEBPS/toc.ncx")
        = some ⟨"OEBPS/toc.ncx", ncxUidPre ++ Nat.repr n2 ++ ncxUidPost t chs, none⟩
    ∧ (Nat.repr n1 = Nat.repr n2 ↔ n1 = n2) := by
  refine ⟨?_, ?_, natRepr_inj⟩
  · unfold buildArchive
    simp only [List.cons_append, List.nil_append]
    rw [List.find?_cons_of_neg _ (by simp), List.find?_cons_of_neg _ (by simp),
      List.find?_cons_of_pos _ rfl]
    rfl
  · unfold buildArchive
    simp only [List.cons_append, List.nil_append]
    rw [List.find?_cons_of_neg _ (by simp), List.find?_cons_of_neg _ (by simp),
      List.find?_cons_of_neg _ (by simp), List.find?_cons_of_pos _ rfl]
    rfl

/-- C10 witness: equal clock readings give equal identifiers. -/
theorem c10_witness :
    Nat.repr 1700000000000 = Nat.repr 1700000000000 ↔
      (1700000000000 : Nat) = 1700000000000 :=
  (c10_identifiers "t" "a" [] 1700000000000 1700000000000).2.2

/-- The GBK heuristic scan of `detectEncoding` (App.vue lines 56-71): walk at
most `min (length - 1) 1000` positions; a byte below `0x80` counts as ASCII;
a byte in `[0x81, 0xFE]` whose successor is in `[0x40, 0xFE]` counts as a
GBK-like lead byte and the scan skips the trail byte (two positions
consumed).  The first argument is the remaining position budget; returns
(gbkLikeCount, asciiCount). -/
def gbkLoop : Nat → List Nat → Nat × Nat
  | 0, _ => (0, 0)
  | _ + 1, [] => (0, 0)
  | _ + 1, [b] => if b < 0x80 then (0, 1) else (0, 0)
  | f + 1, b1 :: b2 :: rest =>
    if b1 < 0x80 then
      let r := gbkLoop f (b2 :: rest)
      (r.1, r.2 + 1)
    else if 0x81 ≤ b1 ∧ b1 ≤ 0xFE ∧ 0x40 ≤ b2 ∧ b2 ≤ 0xFE then
      let r :=
        match f with
        | 0 => (0, 0)
        | f' + 1 => gbkLoop f' rest
      (r.1 + 1, r.2)
    else
      let r := gbkLoop f (b2 :: rest)
      r

/-- `detectEncoding` (App.vue lines 32-79) on the first 4096 bytes: BOM
rules in order, then the GBK heuristic, default `utf-8`.  The JS comparison
`gbkLikeCount > asciiCount * 0.1` is a double-precision computation; for the
reachable counter ranges (counts ≤ 1000) it coincides exactly with the
rational comparison `asciiCount < 10 * gbkLikeCount` used here, since
`fl(10k · fl(0.1))` never falls below `k`. -/
def detectEncoding (bytes : List Nat) : String :=
  let bs := bytes.take 4096
  if bs.take 3 = [0xEF, 0xBB, 0xBF] then "utf-8"
  else if bs.take 2 = [0xFF, 0xFE] then "utf-16le"
  else if bs.take 2 = [0xFE, 0xFF] then "utf-16be"
  else
    let gc := gbkLoop (min (bs.length - 1) 1000) bs
    if 5 < gc.1 ∧ gc.2 < 10 * gc.1 then "gbk" else "utf-8"

/-- C7: `detectEncoding` tries the rules in order with first match winning —
UTF-8 BOM, UTF-16LE BOM, UTF-16BE BOM, then the double-byte heuristic over
at most the first 1000 scanned bytes returning `gbk` exactly when the
GBK-like count exceeds 5 and exceeds a tenth of the ASCII count — and it is
total, always returning one of the four possible values. -/
theorem c7_detect_order (bytes : List Nat) :
    (detectEncoding bytes = "utf-8" ∨ detectEncoding bytes = "utf-16le"
      ∨ detectEncoding bytes = "utf-16be" ∨ detectEncoding bytes = "gbk")
    ∧ ((bytes.take 4096).take 3 = [0xEF, 0xBB, 0xBF] → detectEncoding bytes = "utf-8")
    ∧ (¬(bytes.take 4096).take 3 = [0xEF, 0xBB, 0xBF] →
        (bytes.take 4096).take 2 = [0xFF, 0xFE] → detectEncoding bytes = "utf-16le")
    ∧ (¬(bytes.take 4096).take 3 = [0xEF, 0xBB, 0xBF] →
        ¬(bytes.take 4096).take 2 = [0xFF, 0xFE] →
        (bytes.take 4096).take 2 = [0xFE, 0xFF] → detectEncoding bytes = "utf-16be")
    ∧ (¬(bytes.take 4096).take 3 = [0xEF, 0xBB, 0xBF] →
        ¬(bytes.take 4096).take 2 = [0xFF, 0xFE] →
        ¬(bytes.take 4096).take 2 = [0xFE, 0xFF] →
        (detectEncoding bytes = "gbk" ↔
          5 < (gbkLoop (min ((bytes.take 4096).length - 1) 1000) (bytes.take 4096)).1
          ∧ (gbkLoop (min ((bytes.take 4096).length - 1) 1000) (bytes.take 4096)).2
              < 10 * (gbkLoop (min ((bytes.take 4096).length - 1) 1000)
                  (bytes.take 4096)).1)) := by
  refine ⟨?_, ?_, ?_, ?_, ?_⟩
  · simp only [detectEncoding]
    split_ifs <;> simp
  · intro h1
    simp only [detectEncoding]
    rw [if_pos h1]
  · intro h1 h2
    simp only [detectEncoding]
    rw [if_neg h1, if_pos h2]
  · intro h1 h2 h3
    simp only [detectEncoding]
    rw [if_neg h1, if_neg h2, if_pos h3]
  · intro h1 h2 h3
    simp only [detectEncoding]
    rw [if_neg h1, if_neg h2, if_neg h3]
    by_cases hg : 5 < (gbkLoop (min ((bytes.take 4096).length - 1) 1000)
          (bytes.take 4096)).1
        ∧ (gbkLoop (min ((bytes.take 4096).length - 1) 1000) (bytes.take 4096)).2
            < 10 * (gbkLoop (min ((bytes.take 4096).length - 1) 1000)
                (bytes.take 4096)).1
    · rw [if_pos hg]
      exact iff_of_true rfl hg
    · rw [if_neg hg]
      refine iff_of_false ?_ hg
      intro h
      exact absurd h (by simp)

/-- C7 witness: a UTF-8 BOM file and a GBK-looking file (six two-byte
GBK pairs, zero ASCII bytes). -/
theorem c7_witness :
    detectEncoding [0xEF, 0xBB, 0xBF, 0x41] = "utf-8"
    ∧ detectEncoding [0xB0, 0xA1, 0xB0, 0xA1, 0xB0, 0xA1, 0xB0, 0xA1, 0xB0, 0xA1,
        0xB0, 0xA1] = "gbk" :=
  ⟨(c7_detect_order [0xEF, 0xBB, 0xBF, 0x41]).2.1 (by decide),
    ((c7_detect_order [0xB0, 0xA1, 0xB0, 0xA1, 0xB0, 0xA1, 0xB0, 0xA1, 0xB0, 0xA1,
        0xB0, 0xA1]).2.2.2.2 (by decide) (by decide) (by decide)).mpr (by decide)⟩
